import Mathlib

/-!
Verification development for the interface-definition parsing and
type-resolution engine of `ros2model` (`src/ros2model/api/__init__.py`).

Python strings are modelled as `List Char`; the Python `str` methods used by
the source (`replace`, `split`, `strip`, `isspace`, `startswith`, substring
membership via `in`) are given explicit executable models below.  File access
is modelled by passing a file's stem and its list of lines directly to the
builders, which is the only way the source uses the file system.
-/

namespace Ros2Model

/-- Python strings, modelled as lists of characters. -/
abbrev Str := List Char

/-- Convert a Lean string literal to the `List Char` model. -/
def str (s : String) : Str := s.toList

/-- The ASCII quote character `'` (code 39) that `get_type_format` wraps
compound type names in. -/
def quoteChar : Char := Char.ofNat 39

/-- `"'" + s + "'"`: wrap a string in quote characters. -/
def quoteStr (s : Str) : Str := quoteChar :: (s ++ [quoteChar])

/-- The newline character removed by `line.replace("\n", "")`. -/
def nlChar : Char := Char.ofNat 10

/-- Python `str.isspace` on a single character (ASCII range; the source only
ever meets ASCII whitespace in specification files). -/
def pyIsSpaceChar (c : Char) : Bool :=
  c = ' ' || c = Char.ofNat 9 || c = nlChar || c = Char.ofNat 13 ||
  c = Char.ofNat 11 || c = Char.ofNat 12

/-- Python `str.isspace`: true iff the string is nonempty and all characters
are whitespace. -/
def pyIsSpace (s : Str) : Bool :=
  !s.isEmpty && s.all pyIsSpaceChar

/-- Python `str.strip()`: drop leading and trailing whitespace. -/
def pyStrip (s : Str) : Str :=
  ((s.dropWhile pyIsSpaceChar).reverse.dropWhile pyIsSpaceChar).reverse

/-- Python substring test `pat in s` (for multi-character `pat`). -/
def containsSub (s pat : Str) : Bool :=
  match s with
  | [] => pat.isEmpty
  | _ :: rest => pat.isPrefixOf s || containsSub rest pat

/-- Fuel-driven worker for Python `str.replace`: replace the leftmost
occurrence of `pat`, continue after the replacement, never overlapping.
The fuel is always instantiated with the length of the string, which is
enough for the recursion to finish. -/
def replaceAllF (pat rep : Str) : Nat → Str → Str
  | _, [] => []
  | 0, s => s
  | fuel + 1, c :: rest =>
    if pat ≠ [] ∧ pat.isPrefixOf (c :: rest) then
      rep ++ replaceAllF pat rep fuel ((c :: rest).drop pat.length)
    else
      c :: replaceAllF pat rep fuel rest

/-- Python `s.replace(pat, rep)`: replace every (non-overlapping, leftmost
first) occurrence of `pat` in `s` by `rep`. -/
def replaceAll (s pat rep : Str) : Str :=
  replaceAllF pat rep s.length s

/-- Index of the first occurrence of `c` in `s`, if any. -/
def firstIdxOf (c : Char) : Str → Option Nat
  | [] => none
  | x :: xs => if x = c then some 0 else (firstIdxOf c xs).map (· + 1)

/-- Index of the last occurrence of `c` in `s`, if any. -/
def lastIdxOf (c : Char) (s : Str) : Option Nat :=
  (firstIdxOf c s.reverse).map (fun k => s.length - 1 - k)

/-- `re.sub(r"\[.*\]", "[]", line)`: with a greedy `.*`, the single match
spans from the first `[` to the last `]` of the line (when the last `]` comes
after the first `[`); everything between collapses to `[]`.  After that
replacement the remainder holds no further `]`, so no second match exists. -/
def subBrackets (s : Str) : Str :=
  match firstIdxOf '[' s, lastIdxOf ']' s with
  | some i, some j =>
    if i < j then s.take i ++ '[' :: ']' :: s.drop (j + 1) else s
  | _, _ => s

/-- Python `line.split(maxsplit=1)`: skip leading whitespace, take the first
whitespace-free token, skip the separating whitespace run, and return the
remainder verbatim (dropped when empty). -/
def pySplit1 (s : Str) : List Str :=
  let s1 := s.dropWhile pyIsSpaceChar
  if s1.isEmpty then []
  else
    let tok := s1.takeWhile (fun c => !pyIsSpaceChar c)
    let rest := (s1.dropWhile (fun c => !pyIsSpaceChar c)).dropWhile pyIsSpaceChar
    if rest.isEmpty then [tok] else [tok, rest]

/-- The guard of `split_line`:
`line.startswith("#") or "=" in line or len(line) == 0 or line.isspace()`. -/
def sigGuard (l : Str) : Bool :=
  ['#'].isPrefixOf l || l.contains '=' || l.isEmpty || pyIsSpace l

/-- `if "#" in line: line = line.split("#")[0]`. -/
def stripComment (l : Str) : Str :=
  if l.contains '#' then l.takeWhile (fun c => c ≠ '#') else l

/-- `split[0].replace("/", "/msg/")` followed by `.strip()`. -/
def finishTok (t : Str) : Str :=
  pyStrip (replaceAll t ['/'] (str "/msg/"))

/-- The token assembly at the end of `split_line`.  When
`line.split(maxsplit=1)` is empty the Python code would raise `IndexError`
at `split[0]`; that state is unreachable (the guards above already returned
on empty and whitespace-only lines), and is modelled as `(none, none)`. -/
def splitTokens (l : Str) : Option Str × Option Str :=
  match pySplit1 l with
  | [] => (none, none)
  | [t] => (some (finishTok t), none)
  | t :: r :: _ => (some (finishTok t), some (pyStrip r))

/-- `split_line(line)`: split a line into `(type token, name token)`. -/
def split_line (line : Str) : Option Str × Option Str :=
  let line1 := replaceAll line [nlChar] []
  if sigGuard line1 then (none, none)
  else
    let line2 := stripComment line1
    if pyIsSpace line2 then (none, none)
    else splitTokens (subBrackets line2)

/-- The closed primitive set of `get_type_format`, reproduced verbatim:
note that the array forms of `time`, `duration` and `Header` are absent. -/
def primitive_types : List Str :=
  [str "bool", str "int8", str "uint8", str "int16", str "uint16",
   str "int32", str "uint32", str "int64", str "uint64",
   str "float32", str "float64", str "string", str "byte",
   str "time", str "duration", str "Header",
   str "bool[]", str "int8[]", str "uint8[]", str "int16[]", str "uint16[]",
   str "int32[]", str "uint32[]", str "int64[]", str "uint64[]",
   str "float32[]", str "float64[]", str "string[]", str "byte[]"]

/-- `get_type_format(line, package_name)`: tokenize the line, keep primitive
type tokens verbatim, and for compound tokens default-qualify with
`package_name + "/msg/"` when no `/` is present, wrap in quotes, then strip
any `[]` and unconditionally append `[]` after the closing quote.  Returns
`(variablename, typename)`. -/
def get_type_format (line pkg : Str) : Option Str × Option Str :=
  match split_line line with
  | (none, variablename) => (variablename, none)
  | (some t, variablename) =>
    if t ∈ primitive_types then (variablename, some t)
    else
      let t1 := if t.contains '/' then t else pkg ++ str "/msg/" ++ t
      let t2 := quoteStr t1
      (variablename, some (replaceAll t2 (str "[]") [] ++ str "[]"))

/-- The type-resolution branch of `get_type_format` on its own: what the
resolver returns for a non-`None` type token `t`. -/
def resolveTok (t pkg : Str) : Str :=
  if t ∈ primitive_types then t
  else
    replaceAll (quoteStr (if t.contains '/' then t else pkg ++ str "/msg/" ++ t))
      (str "[]") [] ++ str "[]"

/-- A Python `dict` from (possibly missing) field name to resolved type,
as an insertion-ordered association list.  `d[k] = v` updates the value in
place when `k` is present and appends `(k, v)` otherwise. -/
abbrev FieldSet := List (Option Str × Str)

/-- `d[k] = v` on a Python dict. -/
def dictInsert (d : FieldSet) (k : Option Str) (v : Str) : FieldSet :=
  match d with
  | [] => [(k, v)]
  | (k1, v1) :: rest =>
    if k1 = k then (k, v) :: rest else (k1, v1) :: dictInsert rest k v

/-- The keys of a `FieldSet`, in order. -/
def fieldKeys (d : FieldSet) : List (Option Str) := d.map Prod.fst

/-- The shared per-line accumulation of every builder: resolve the line and
store `message[variablename] = typename` unless the type resolved to `None`. -/
def fieldStep (pkg : Str) (d : FieldSet) (line : Str) : FieldSet :=
  match get_type_format line pkg with
  | (_, none) => d
  | (v, some t) => dictInsert d v t

/-- Fold `fieldStep` over a list of lines. -/
def fieldFold (pkg : Str) (d : FieldSet) (lines : List Str) : FieldSet :=
  lines.foldl (fieldStep pkg) d

/-- `Message` dataclass. -/
structure Message where
  name : Str
  message : FieldSet
deriving DecidableEq

/-- `Service` dataclass. -/
structure Service where
  name : Str
  request : FieldSet
  response : FieldSet
deriving DecidableEq

/-- `Action` dataclass. -/
structure Action where
  name : Str
  goal : FieldSet
  result : FieldSet
  feedback : FieldSet
deriving DecidableEq

/-- One loop iteration of `process_msg_file`: skip lines containing `=`,
strip newlines, skip lines that became empty, then store the resolved field. -/
def process_msg_step (pkg : Str) (msg : FieldSet) (line : Str) : FieldSet :=
  if line.contains '=' then msg
  else
    let l := replaceAll line [nlChar] []
    if l.isEmpty then msg
    else fieldStep pkg msg l

/-- The loop of `process_msg_file` over the file's lines. -/
def process_msg_lines (lines : List Str) (pkg : Str) : FieldSet :=
  lines.foldl (process_msg_step pkg) []

/-- `process_msg_file`, with the file modelled by its stem and lines. -/
def process_msg_file (stem : Str) (lines : List Str) (pkg : Str) : Message :=
  ⟨stem, process_msg_lines lines pkg⟩

/-- One loop iteration of `process_srv_file` on state
`(resp, request, response)`: a line containing `---` sets `resp` and is
skipped; any other line is resolved and stored in the section selected by
`resp`. -/
def process_srv_step (pkg : Str) (st : Bool × FieldSet × FieldSet) (line : Str) :
    Bool × FieldSet × FieldSet :=
  if containsSub line (str "---") then (true, st.2.1, st.2.2)
  else
    match get_type_format line pkg with
    | (_, none) => st
    | (v, some t) =>
      if st.1 then (st.1, st.2.1, dictInsert st.2.2 v t)
      else (st.1, dictInsert st.2.1 v t, st.2.2)

/-- The loop of `process_srv_file` over the file's lines. -/
def process_srv_lines (lines : List Str) (pkg : Str) : Bool × FieldSet × FieldSet :=
  lines.foldl (process_srv_step pkg) (false, [], [])

/-- `process_srv_file`, with the file modelled by its stem and lines. -/
def process_srv_file (stem : Str) (lines : List Str) (pkg : Str) : Service :=
  ⟨stem, (process_srv_lines lines pkg).2.1, (process_srv_lines lines pkg).2.2⟩

/-- One loop iteration of `process_action_file` on state
`(border, goal, result, feedback)`: a line containing `---` increments
`border`; other lines are resolved and stored in `goal`, `result` or
`feedback` when `border` is `0`, `1` or `2` (and dropped otherwise). -/
def process_action_step (pkg : Str) (st : Nat × FieldSet × FieldSet × FieldSet)
    (line : Str) : Nat × FieldSet × FieldSet × FieldSet :=
  if containsSub line (str "---") then (st.1 + 1, st.2)
  else
    match get_type_format line pkg with
    | (_, none) => st
    | (v, some t) =>
      (st.1,
       (if st.1 = 0 then dictInsert st.2.1 v t else st.2.1),
       (if st.1 = 1 then dictInsert st.2.2.1 v t else st.2.2.1),
       (if st.1 = 2 then dictInsert st.2.2.2 v t else st.2.2.2))

/-- The loop of `process_action_file` over the file's lines. -/
def process_action_lines (lines : List Str) (pkg : Str) :
    Nat × FieldSet × FieldSet × FieldSet :=
  lines.foldl (process_action_step pkg) (0, [], [], [])

/-- `process_action_file`, with the file modelled by its stem and lines. -/
def process_action_file (stem : Str) (lines : List Str) (pkg : Str) : Action :=
  ⟨stem, (process_action_lines lines pkg).2.1,
   (process_action_lines lines pkg).2.2.1,
   (process_action_lines lines pkg).2.2.2⟩

/-- `TopicInfo` records handled by `fix_topic_names`. -/
structure TopicInfo where
  name : Str
  types : List Str
deriving DecidableEq

/-- The loop of `fix_topic_names`, threading the `node_name` variable, which
the loop body overwrites with the literal `"/node_name"` whenever it does not
start with `/`; every occurrence of it inside `topic.name` is then replaced
by `~`. -/
def fix_topic_names_loop : Str → List TopicInfo → List TopicInfo
  | _, [] => []
  | node_name, t :: ts =>
    let nn := if ['/'].isPrefixOf node_name then node_name else str "/node_name"
    ⟨replaceAll t.name nn (str "~"), t.types⟩ :: fix_topic_names_loop nn ts

/-- `fix_topic_names(node_name, topics)`. -/
def fix_topic_names (node_name : Str) (topics : List TopicInfo) : List TopicInfo :=
  fix_topic_names_loop node_name topics

/-! ### Basic facts about the string model -/

theorem str_brackets : str "[]" = ['[', ']'] := rfl

theorem str_sep : str "---" = ['-', '-', '-'] := rfl

theorem str_msg : str "/msg/" = ['/', 'm', 's', 'g', '/'] := rfl

/-- Characters that may appear in a plain (unscoped, bracket-free) token. -/
def plainChar (c : Char) : Bool :=
  !pyIsSpaceChar c && !(c == '#') && !(c == '=') && !(c == '[') &&
    !(c == ']') && !(c == '/')

theorem plainChar_spec {c : Char} (h : plainChar c = true) :
    pyIsSpaceChar c = false ∧ c ≠ '#' ∧ c ≠ '=' ∧ c ≠ '[' ∧ c ≠ ']' ∧ c ≠ '/' := by
  simp only [plainChar, Bool.and_eq_true, Bool.not_eq_true', beq_eq_false_iff_ne,
    ne_eq] at h
  exact ⟨h.1.1.1.1.1, h.1.1.1.1.2, h.1.1.1.2, h.1.1.2, h.1.2, h.2⟩

theorem plainChar_ne_nl {c : Char} (h : plainChar c = true) : c ≠ nlChar := by
  intro he
  have := (plainChar_spec h).1
  rw [he] at this
  exact absurd this (by decide)

theorem contains_eq_false_of_not_mem {c : Char} {s : Str} (h : c ∉ s) :
    s.contains c = false := by
  induction s with
  | nil => rfl
  | cons a rest ih =>
    simp only [List.contains_cons, Bool.or_eq_false_iff, beq_eq_false_iff_ne, ne_eq]
    exact ⟨fun he => h (List.mem_cons.mpr (Or.inl he)),
      ih fun hm => h (List.mem_cons.mpr (Or.inr hm))⟩

theorem dropWhile_cons_false {p : Char → Bool} {a : Char} {l : Str}
    (h : p a = false) : (a :: l).dropWhile p = a :: l := by
  simp [List.dropWhile_cons, h]

theorem dropWhile_eq_self_of_all {p : Char → Bool} {s : Str}
    (h : ∀ a ∈ s, p a = false) : s.dropWhile p = s := by
  cases s with
  | nil => rfl
  | cons a l => exact dropWhile_cons_false (h a (List.mem_cons_self a l))

theorem takeWhile_append_all {p : Char → Bool} {A B : Str}
    (h : ∀ a ∈ A, p a = true) :
    (A ++ B).takeWhile p = A ++ B.takeWhile p := by
  induction A with
  | nil => rfl
  | cons a A ih =>
    have ha : p a = true := h a (List.mem_cons_self a A)
    simp [List.takeWhile_cons, ha, ih fun x hx => h x (List.mem_cons_of_mem a hx)]

theorem dropWhile_append_all {p : Char → Bool} {A B : Str}
    (h : ∀ a ∈ A, p a = true) :
    (A ++ B).dropWhile p = B.dropWhile p := by
  induction A with
  | nil => rfl
  | cons a A ih =>
    have ha : p a = true := h a (List.mem_cons_self a A)
    simp [List.dropWhile_cons, ha, ih fun x hx => h x (List.mem_cons_of_mem a hx)]

theorem pyStrip_eq_self {s : Str} (h : ∀ a ∈ s, pyIsSpaceChar a = false) :
    pyStrip s = s := by
  unfold pyStrip
  rw [dropWhile_eq_self_of_all h,
    dropWhile_eq_self_of_all fun a ha => h a (List.mem_reverse.mp ha),
    List.reverse_reverse]

/-! ### `firstIdxOf` and `subBrackets` -/

theorem firstIdxOf_eq_none {c : Char} {s : Str} (h : c ∉ s) :
    firstIdxOf c s = none := by
  induction s with
  | nil => rfl
  | cons a s ih =>
    have ha : ¬(a = c) := fun he => h (he ▸ List.mem_cons_self a s)
    simp [firstIdxOf, ha, ih fun hm => h (List.mem_cons_of_mem a hm)]

theorem firstIdxOf_cons (c a : Char) (s : Str) :
    firstIdxOf c (a :: s) = if a = c then some 0 else (firstIdxOf c s).map (· + 1) :=
  rfl

theorem firstIdxOf_append_not_mem {c : Char} {A B : Str} (h : c ∉ A) :
    firstIdxOf c (A ++ B) = (firstIdxOf c B).map (· + A.length) := by
  induction A with
  | nil =>
    cases h1 : firstIdxOf c B <;> simp [h1]
  | cons a A ih =>
    have ha : ¬(a = c) := fun he => h (List.mem_cons.mpr (Or.inl he.symm))
    have hA := ih fun hm => h (List.mem_cons.mpr (Or.inr hm))
    rw [List.cons_append, firstIdxOf_cons, if_neg ha, hA, List.length_cons]
    cases h1 : firstIdxOf c B with
    | none => rfl
    | some k => simp only [Option.map_some', Nat.add_assoc]

theorem subBrackets_eq_self {s : Str} (h : '[' ∉ s) : subBrackets s = s := by
  unfold subBrackets
  rw [firstIdxOf_eq_none h]

theorem subBrackets_pair {T B : Str} (hT : '[' ∉ T) (hB : ']' ∉ B) :
    subBrackets (T ++ '[' :: ']' :: B) = T ++ '[' :: ']' :: B := by
  have h1 : firstIdxOf '[' (T ++ '[' :: ']' :: B) = some T.length := by
    rw [firstIdxOf_append_not_mem hT]
    simp [firstIdxOf]
  have h2 : lastIdxOf ']' (T ++ '[' :: ']' :: B) = some (T.length + 1) := by
    unfold lastIdxOf
    have hrev : (T ++ '[' :: ']' :: B).reverse = B.reverse ++ ']' :: '[' :: T.reverse := by
      simp
    rw [hrev, firstIdxOf_append_not_mem (by simpa using hB)]
    have h0 : firstIdxOf ']' (']' :: '[' :: T.reverse) = some 0 := by
      simp [firstIdxOf]
    rw [h0]
    simp only [Option.map_some', Option.map_map]
    simp [List.length_append, List.length_reverse]
    omega
  have htake : (T ++ '[' :: ']' :: B).take T.length = T := by
    simp
  have hdrop : (T ++ '[' :: ']' :: B).drop (T.length + 1 + 1) = B := by
    have he : T ++ '[' :: ']' :: B = (T ++ ['[', ']']) ++ B := by simp
    rw [he]
    have hlen : (T ++ ['[', ']']).length = T.length + 1 + 1 := by simp
    rw [← hlen, List.drop_left]
  simp only [subBrackets, h1, h2]
  rw [if_pos (Nat.lt_succ_self _), htake, hdrop]

/-! ### `containsSub` and `replaceAll` -/

theorem containsSub_cons (a : Char) (s pat : Str) :
    containsSub (a :: s) pat = (pat.isPrefixOf (a :: s) || containsSub s pat) :=
  rfl

theorem isPrefixOf_cons_eq_false {c : Char} {pat : Str} {a : Char} {s : Str}
    (h : ¬(c = a)) : (c :: pat).isPrefixOf (a :: s) = false := by
  simp only [List.isPrefixOf, Bool.and_eq_false_iff, beq_eq_false_iff_ne, ne_eq]
  exact Or.inl h

theorem containsSub_eq_false_of_head_not_mem {c : Char} {pat s : Str}
    (h : c ∉ s) : containsSub s (c :: pat) = false := by
  induction s with
  | nil => rfl
  | cons a rest ih =>
    rw [containsSub_cons,
      isPrefixOf_cons_eq_false fun he => h (List.mem_cons.mpr (Or.inl he)),
      ih fun hm => h (List.mem_cons.mpr (Or.inr hm))]
    rfl

theorem replaceAllF_nil (pat rep : Str) (f : Nat) : replaceAllF pat rep f [] = [] := by
  cases f <;> rfl

theorem replaceAllF_cons (pat rep : Str) (f : Nat) (c : Char) (rest : Str) :
    replaceAllF pat rep (f + 1) (c :: rest) =
      if pat ≠ [] ∧ pat.isPrefixOf (c :: rest) then
        rep ++ replaceAllF pat rep f ((c :: rest).drop pat.length)
      else c :: replaceAllF pat rep f rest :=
  rfl

theorem replaceAllF_fuel_irrel (pat rep : Str) :
    ∀ f g s, s.length ≤ f → s.length ≤ g →
      replaceAllF pat rep f s = replaceAllF pat rep g s := by
  intro f
  induction f with
  | zero =>
    intro g s hf _
    have hs : s = [] := List.length_eq_zero.mp (Nat.le_zero.mp hf)
    subst hs
    rw [replaceAllF_nil, replaceAllF_nil]
  | succ f ih =>
    intro g s hf hg
    cases s with
    | nil => rw [replaceAllF_nil, replaceAllF_nil]
    | cons c rest =>
      cases g with
      | zero => simp at hg
      | succ g =>
        rw [replaceAllF_cons, replaceAllF_cons]
        by_cases hcond : pat ≠ [] ∧ pat.isPrefixOf (c :: rest)
        · rw [if_pos hcond, if_pos hcond]
          have hlp : 1 ≤ pat.length := List.length_pos.mpr hcond.1
          have hd : ((c :: rest).drop pat.length).length ≤ rest.length := by
            rw [List.length_drop, List.length_cons]
            omega
          rw [ih g _ (le_trans hd (Nat.le_of_succ_le_succ hf))
            (le_trans hd (Nat.le_of_succ_le_succ hg))]
        · rw [if_neg hcond, if_neg hcond]
          rw [ih g rest (Nat.le_of_succ_le_succ hf) (Nat.le_of_succ_le_succ hg)]

theorem replaceAll_nil (pat rep : Str) : replaceAll [] pat rep = [] := rfl

theorem replaceAll_cons_neg {pat : Str} (rep : Str) {c : Char} {rest : Str}
    (h : ¬(pat ≠ [] ∧ pat.isPrefixOf (c :: rest))) :
    replaceAll (c :: rest) pat rep = c :: replaceAll rest pat rep := by
  unfold replaceAll
  rw [List.length_cons, replaceAllF_cons, if_neg h]

theorem replaceAll_cons_pos {pat : Str} (rep : Str) {c : Char} {rest : Str}
    (hp : pat ≠ []) (hpre : pat.isPrefixOf (c :: rest)) :
    replaceAll (c :: rest) pat rep =
      rep ++ replaceAll ((c :: rest).drop pat.length) pat rep := by
  unfold replaceAll
  rw [List.length_cons, replaceAllF_cons, if_pos ⟨hp, hpre⟩]
  congr 1
  apply replaceAllF_fuel_irrel
  · rw [List.length_drop, List.length_cons]
    have : 1 ≤ pat.length := List.length_pos.mpr hp
    omega
  · exact le_refl _

theorem replaceAll_eq_self {s pat : Str} (rep : Str)
    (h : containsSub s pat = false) : replaceAll s pat rep = s := by
  induction s with
  | nil => rfl
  | cons c rest ih =>
    rw [containsSub_cons, Bool.or_eq_false_iff] at h
    have hneg : ¬(pat ≠ [] ∧ pat.isPrefixOf (c :: rest)) := by
      rintro ⟨-, hpre⟩
      rw [h.1] at hpre
      exact absurd hpre (by simp)
    rw [replaceAll_cons_neg rep hneg, ih h.2]

theorem replaceAll_singleton_eq_filter (c : Char) (s : Str) :
    replaceAll s [c] [] = s.filter (fun x => !(x == c)) := by
  induction s with
  | nil => rfl
  | cons a rest ih =>
    by_cases hac : c = a
    · subst hac
      rw [replaceAll_cons_pos [] (by simp) (by simp [List.isPrefixOf])]
      simp [List.filter_cons, ih]
    · rw [replaceAll_cons_neg []
        (by rintro ⟨-, hpre⟩; rw [isPrefixOf_cons_eq_false hac] at hpre; exact absurd hpre (by simp))]
      have hne : (a == c) = false := beq_eq_false_iff_ne.mpr fun he => hac he.symm
      simp [List.filter_cons, hne, ih]

theorem replaceAll_nl_eq_self {s : Str} (h : nlChar ∉ s) :
    replaceAll s [nlChar] [] = s := by
  rw [replaceAll_singleton_eq_filter]
  apply List.filter_eq_self.mpr
  intro a ha
  simp only [Bool.not_eq_true', beq_eq_false_iff_ne, ne_eq]
  rintro rfl
  exact h ha

theorem replaceAll_bracket_pair {A B : Str} (rep : Str) (h : '[' ∉ A) :
    replaceAll (A ++ '[' :: ']' :: B) (str "[]") rep
      = A ++ (rep ++ replaceAll B (str "[]") rep) := by
  induction A with
  | nil =>
    rw [List.nil_append, str_brackets,
      replaceAll_cons_pos rep (by simp) (by simp [List.isPrefixOf])]
    rw [List.nil_append, ← str_brackets]
    congr 1
  | cons a A ih =>
    have ha : ¬('[' = a) := fun he => h (List.mem_cons.mpr (Or.inl he))
    rw [List.cons_append,
      replaceAll_cons_neg rep (by
        rintro ⟨-, hpre⟩
        rw [str_brackets, isPrefixOf_cons_eq_false ha] at hpre
        exact absurd hpre (by simp)),
      ih fun hm => h (List.mem_cons.mpr (Or.inr hm)), List.cons_append]

/-! ### Tokenization of well-formed field lines -/

theorem pySplit1_two {T N : Str} (hT0 : T ≠ []) (hN0 : N ≠ [])
    (hT : ∀ c ∈ T, pyIsSpaceChar c = false)
    (hN : ∀ c ∈ N, pyIsSpaceChar c = false) :
    pySplit1 (T ++ ' ' :: N) = [T, N] := by
  obtain ⟨t, T1, rfl⟩ : ∃ t T1, T = t :: T1 := by
    cases T with
    | nil => exact absurd rfl hT0
    | cons t T1 => exact ⟨t, T1, rfl⟩
  obtain ⟨n, N1, rfl⟩ : ∃ n N1, N = n :: N1 := by
    cases N with
    | nil => exact absurd rfl hN0
    | cons n N1 => exact ⟨n, N1, rfl⟩
  have ht : pyIsSpaceChar t = false := hT t (List.mem_cons_self t T1)
  have hn : pyIsSpaceChar n = false := hN n (List.mem_cons_self n N1)
  unfold pySplit1
  dsimp only
  rw [List.cons_append, dropWhile_cons_false ht, ← List.cons_append]
  have hs1 : ((t :: T1) ++ ' ' :: n :: N1).isEmpty = false := rfl
  rw [hs1]
  have htok : ((t :: T1) ++ ' ' :: n :: N1).takeWhile (fun c => !pyIsSpaceChar c)
      = t :: T1 := by
    rw [takeWhile_append_all (by intro a ha; simp [hT a ha])]
    simp [List.takeWhile_cons, pyIsSpaceChar]
  have hrest : (((t :: T1) ++ ' ' :: n :: N1).dropWhile
      (fun c => !pyIsSpaceChar c)).dropWhile pyIsSpaceChar = n :: N1 := by
    rw [dropWhile_append_all (by intro a ha; simp [hT a ha])]
    rw [dropWhile_cons_false (by simp [pyIsSpaceChar])]
    rw [List.dropWhile_cons]
    simp only [show pyIsSpaceChar ' ' = true from rfl, if_true]
    exact dropWhile_cons_false hn
  rw [htok, hrest]
  rfl

theorem sigGuard_eq_false {a : Char} {l : Str} (ha : ¬(a = '#'))
    (haspace : pyIsSpaceChar a = false) (heq : '=' ∉ a :: l) :
    sigGuard (a :: l) = false := by
  unfold sigGuard
  rw [isPrefixOf_cons_eq_false fun he => ha he.symm,
    contains_eq_false_of_not_mem heq]
  simp [pyIsSpace, List.all_cons, haspace]

theorem pyIsSpace_cons_false {a : Char} {l : Str}
    (haspace : pyIsSpaceChar a = false) : pyIsSpace (a :: l) = false := by
  simp [pyIsSpace, List.all_cons, haspace]

/-- Tokenizing a plain two-token line `T NAME` (no brackets, no `/`):
`split_line` returns `(some T, some NAME)`. -/
theorem split_line_two_plain {T N : Str} (hT0 : T ≠ []) (hN0 : N ≠ [])
    (hT : ∀ c ∈ T, plainChar c = true) (hN : ∀ c ∈ N, plainChar c = true) :
    split_line (T ++ ' ' :: N) = (some T, some N) := by
  obtain ⟨t, T1, rfl⟩ : ∃ t T1, T = t :: T1 := by
    cases T with
    | nil => exact absurd rfl hT0
    | cons t T1 => exact ⟨t, T1, rfl⟩
  have hmem : ∀ c ∈ (t :: T1) ++ ' ' :: N, pyIsSpaceChar c = false ∨ c = ' ' := by
    intro c hc
    rcases List.mem_append.mp hc with hc | hc
    · exact Or.inl (plainChar_spec (hT c hc)).1
    · rcases List.mem_cons.mp hc with hc | hc
      · exact Or.inr hc
      · exact Or.inl (plainChar_spec (hN c hc)).1
  have hnl : nlChar ∉ (t :: T1) ++ ' ' :: N := by
    intro hc
    rcases hmem nlChar hc with hc | hc
    · exact absurd hc (by decide)
    · exact absurd hc (by decide)
  have heq : '=' ∉ (t :: T1) ++ ' ' :: N := by
    intro hc
    rcases List.mem_append.mp hc with hc | hc
    · exact absurd hc fun hc => (plainChar_spec (hT '=' hc)).2.2.1 rfl
    · rcases List.mem_cons.mp hc with hc | hc
      · exact absurd hc (by decide)
      · exact (plainChar_spec (hN '=' hc)).2.2.1 rfl
  have hhash : '#' ∉ (t :: T1) ++ ' ' :: N := by
    intro hc
    rcases List.mem_append.mp hc with hc | hc
    · exact (plainChar_spec (hT '#' hc)).2.1 rfl
    · rcases List.mem_cons.mp hc with hc | hc
      · exact absurd hc (by decide)
      · exact (plainChar_spec (hN '#' hc)).2.1 rfl
  have hlb : '[' ∉ (t :: T1) ++ ' ' :: N := by
    intro hc
    rcases List.mem_append.mp hc with hc | hc
    · exact (plainChar_spec (hT '[' hc)).2.2.2.1 rfl
    · rcases List.mem_cons.mp hc with hc | hc
      · exact absurd hc (by decide)
      · exact (plainChar_spec (hN '[' hc)).2.2.2.1 rfl
  have ht := plainChar_spec (hT t (List.mem_cons_self t T1))
  unfold split_line
  dsimp only
  rw [show (t :: T1) ++ ' ' :: N = t :: (T1 ++ ' ' :: N) from rfl] at hnl ⊢
  rw [replaceAll_nl_eq_self hnl]
  rw [sigGuard_eq_false ht.2.1 ht.1 (by simpa using heq)]
  simp only [Bool.false_eq_true, if_false]
  unfold stripComment
  rw [contains_eq_false_of_not_mem (by simpa using hhash)]
  simp only [Bool.false_eq_true, if_false]
  rw [pyIsSpace_cons_false ht.1]
  simp only [Bool.false_eq_true, if_false]
  rw [show t :: (T1 ++ ' ' :: N) = (t :: T1) ++ ' ' :: N from rfl]
  rw [subBrackets_eq_self hlb]
  unfold splitTokens
  rw [pySplit1_two (by simp) hN0
    (fun c hc => (plainChar_spec (hT c hc)).1)
    (fun c hc => (plainChar_spec (hN c hc)).1)]
  dsimp only
  unfold finishTok
  rw [replaceAll_eq_self (str "/msg/")
    (containsSub_eq_false_of_head_not_mem
      (fun hc => (plainChar_spec (hT '/' hc)).2.2.2.2.2 rfl))]
  rw [pyStrip_eq_self (fun c hc => (plainChar_spec (hT c hc)).1),
    pyStrip_eq_self (fun c hc => (plainChar_spec (hN c hc)).1)]

/-- Tokenizing an array two-token line `T[] NAME`: the greedy bracket
rewrite leaves the already-collapsed `[]` in place and `split_line`
returns `(some (T ++ "[]"), some NAME)`. -/
theorem split_line_two_array {T N : Str} (hT0 : T ≠ []) (hN0 : N ≠ [])
    (hT : ∀ c ∈ T, plainChar c = true) (hN : ∀ c ∈ N, plainChar c = true) :
    split_line (T ++ '[' :: ']' :: ' ' :: N) = (some (T ++ str "[]"), some N) := by
  obtain ⟨t, T1, rfl⟩ : ∃ t T1, T = t :: T1 := by
    cases T with
    | nil => exact absurd rfl hT0
    | cons t T1 => exact ⟨t, T1, rfl⟩
  have hnl : nlChar ∉ (t :: T1) ++ '[' :: ']' :: ' ' :: N := by
    intro hc
    rcases List.mem_append.mp hc with hc | hc
    · exact absurd (plainChar_spec (hT _ hc)).1 (by simp [pyIsSpaceChar])
    · rcases List.mem_cons.mp hc with hc | hc
      · exact absurd hc (by decide)
      · rcases List.mem_cons.mp hc with hc | hc
        · exact absurd hc (by decide)
        · rcases List.mem_cons.mp hc with hc | hc
          · exact absurd hc (by decide)
          · exact absurd (plainChar_spec (hN _ hc)).1 (by simp [pyIsSpaceChar])
  have heq : '=' ∉ (t :: T1) ++ '[' :: ']' :: ' ' :: N := by
    intro hc
    rcases List.mem_append.mp hc with hc | hc
    · exact (plainChar_spec (hT '=' hc)).2.2.1 rfl
    · rcases List.mem_cons.mp hc with hc | hc
      · exact absurd hc (by decide)
      · rcases List.mem_cons.mp hc with hc | hc
        · exact absurd hc (by decide)
        · rcases List.mem_cons.mp hc with hc | hc
          · exact absurd hc (by decide)
          · exact (plainChar_spec (hN '=' hc)).2.2.1 rfl
  have hhash : '#' ∉ (t :: T1) ++ '[' :: ']' :: ' ' :: N := by
    intro hc
    rcases List.mem_append.mp hc with hc | hc
    · exact (plainChar_spec (hT '#' hc)).2.1 rfl
    · rcases List.mem_cons.mp hc with hc | hc
      · exact absurd hc (by decide)
      · rcases List.mem_cons.mp hc with hc | hc
        · exact absurd hc (by decide)
        · rcases List.mem_cons.mp hc with hc | hc
          · exact absurd hc (by decide)
          · exact (plainChar_spec (hN '#' hc)).2.1 rfl
  have ht := plainChar_spec (hT t (List.mem_cons_self t T1))
  unfold split_line
  dsimp only
  rw [show (t :: T1) ++ '[' :: ']' :: ' ' :: N = t :: (T1 ++ '[' :: ']' :: ' ' :: N)
    from rfl] at hnl ⊢
  rw [replaceAll_nl_eq_self hnl]
  rw [sigGuard_eq_false ht.2.1 ht.1 (by simpa using heq)]
  simp only [Bool.false_eq_true, if_false]
  unfold stripComment
  rw [contains_eq_false_of_not_mem (by simpa using hhash)]
  simp only [Bool.false_eq_true, if_false]
  rw [pyIsSpace_cons_false ht.1]
  simp only [Bool.false_eq_true, if_false]
  rw [show t :: (T1 ++ '[' :: ']' :: ' ' :: N) = (t :: T1) ++ '[' :: ']' :: ' ' :: N
    from rfl]
  rw [subBrackets_pair
    (fun hc => (plainChar_spec (hT '[' hc)).2.2.2.1 rfl)
    (by
      intro hc
      rcases List.mem_cons.mp hc with hc | hc
      · exact absurd hc (by decide)
      · exact (plainChar_spec (hN ']' hc)).2.2.2.2.1 rfl)]
  unfold splitTokens
  have hre : (t :: T1) ++ '[' :: ']' :: ' ' :: N
      = ((t :: T1) ++ ['[', ']']) ++ ' ' :: N := by simp
  rw [hre, pySplit1_two (by simp) hN0
    (by
      intro c hc
      rcases List.mem_append.mp hc with hc | hc
      · exact (plainChar_spec (hT c hc)).1
      · rcases List.mem_cons.mp hc with hc | hc
        · subst hc; rfl
        · rcases List.mem_cons.mp hc with hc | hc
          · subst hc; rfl
          · exact absurd hc (by simp))
    (fun c hc => (plainChar_spec (hN c hc)).1)]
  dsimp only
  unfold finishTok
  rw [replaceAll_eq_self (str "/msg/")
    (containsSub_eq_false_of_head_not_mem (by
      intro hc
      rcases List.mem_append.mp hc with hc | hc
      · exact (plainChar_spec (hT '/' hc)).2.2.2.2.2 rfl
      · exact absurd hc (by decide)))]
  rw [pyStrip_eq_self (by
    intro c hc
    rcases List.mem_append.mp hc with hc | hc
    · exact (plainChar_spec (hT c hc)).1
    · rcases List.mem_cons.mp hc with hc | hc
      · subst hc; rfl
      · rcases List.mem_cons.mp hc with hc | hc
        · subst hc; rfl
        · exact absurd hc (by simp)),
    pyStrip_eq_self (fun c hc => (plainChar_spec (hN c hc)).1)]
  rw [str_brackets]

/-! ### Behaviour of `get_type_format` on resolved tokens -/

theorem gtf_primitive {l pkg t n : Str} (hs : split_line l = (some t, some n))
    (hp : t ∈ primitive_types) : get_type_format l pkg = (some n, some t) := by
  unfold get_type_format
  rw [hs]
  dsimp only
  rw [if_pos hp]

theorem not_lbracket_mem_quoted {pkg t : Str} (hbpkg : '[' ∉ pkg)
    (hbr : '[' ∉ t) : '[' ∉ quoteStr (pkg ++ str "/msg/" ++ t) := by
  intro hc
  rcases List.mem_cons.mp hc with hc | hc
  · exact absurd hc (by decide)
  rcases List.mem_append.mp hc with hc | hc
  · rcases List.mem_append.mp hc with hc | hc
    · rcases List.mem_append.mp hc with hc | hc
      · exact hbpkg hc
      · exact absurd hc (by decide)
    · exact hbr hc
  · exact absurd hc (by decide)

/-- On a compound, unscoped, bracket-free type token the resolver emits the
quoted package-qualified name with `[]` appended after the closing quote —
even though the token carried no array annotation. -/
theorem gtf_compound {l pkg t n : Str} (hs : split_line l = (some t, some n))
    (hp : t ∉ primitive_types) (hslash : '/' ∉ t) (hbr : '[' ∉ t)
    (hbpkg : '[' ∉ pkg) :
    get_type_format l pkg
      = (some n, some (quoteStr (pkg ++ str "/msg/" ++ t) ++ str "[]")) := by
  unfold get_type_format
  rw [hs]
  dsimp only
  rw [if_neg hp, contains_eq_false_of_not_mem hslash]
  simp only [Bool.false_eq_true, if_false]
  rw [replaceAll_eq_self []
    (by
      rw [str_brackets]
      exact containsSub_eq_false_of_head_not_mem
        (not_lbracket_mem_quoted hbpkg hbr))]

/-- On a compound, unscoped array token `T[]` the resolver removes the `[]`
that sits inside the quotes and re-appends it after the closing quote,
producing the same string as for the bracket-free token `T`. -/
theorem gtf_compound_array {l pkg t n : Str}
    (hs : split_line l = (some (t ++ str "[]"), some n))
    (hp : (t ++ str "[]") ∉ primitive_types) (hslash : '/' ∉ t)
    (hbr : '[' ∉ t) (hbpkg : '[' ∉ pkg) :
    get_type_format l pkg
      = (some n, some (quoteStr (pkg ++ str "/msg/" ++ t) ++ str "[]")) := by
  unfold get_type_format
  rw [hs]
  dsimp only
  rw [if_neg hp]
  rw [contains_eq_false_of_not_mem (by
    intro hc
    rcases List.mem_append.mp hc with hc | hc
    · exact hslash hc
    · exact absurd hc (by decide))]
  simp only [Bool.false_eq_true, if_false]
  have hshape : quoteStr (pkg ++ str "/msg/" ++ (t ++ str "[]"))
      = (quoteChar :: (pkg ++ str "/msg/" ++ t)) ++ '[' :: ']' :: [quoteChar] := by
    simp [quoteStr, str_brackets, List.append_assoc]
  rw [hshape, replaceAll_bracket_pair [] (by
    intro hc
    rcases List.mem_cons.mp hc with hc | hc
    · exact absurd hc (by decide)
    · rcases List.mem_append.mp hc with hc | hc
      · rcases List.mem_append.mp hc with hc | hc
        · exact hbpkg hc
        · exact absurd hc (by decide)
      · exact hbr hc)]
  rw [replaceAll_eq_self [] (by decide)]
  simp [quoteStr, List.append_assoc]

/-! ### Builder fold characterizations -/

theorem srv_step_sep {pkg line : Str} (h : containsSub line (str "---") = true)
    (st : Bool × FieldSet × FieldSet) :
    process_srv_step pkg st line = (true, st.2.1, st.2.2) := by
  unfold process_srv_step
  rw [h]
  rfl

theorem srv_step_nosep_false {pkg line : Str}
    (h : containsSub line (str "---") = false) (req res : FieldSet) :
    process_srv_step pkg (false, req, res) line
      = (false, fieldStep pkg req line, res) := by
  unfold process_srv_step fieldStep
  rw [h]
  simp only [Bool.false_eq_true, if_false]
  rcases get_type_format line pkg with ⟨v, _ | t⟩
  · rfl
  · rfl

theorem srv_step_nosep_true {pkg line : Str}
    (h : containsSub line (str "---") = false) (req res : FieldSet) :
    process_srv_step pkg (true, req, res) line
      = (true, req, fieldStep pkg res line) := by
  unfold process_srv_step fieldStep
  rw [h]
  simp only [Bool.false_eq_true, if_false]
  rcases get_type_format line pkg with ⟨v, _ | t⟩
  · rfl
  · rfl

theorem srv_fold_false {pkg : Str} {ls : List Str}
    (h : ∀ l ∈ ls, containsSub l (str "---") = false) (req res : FieldSet) :
    ls.foldl (process_srv_step pkg) (false, req, res)
      = (false, fieldFold pkg req ls, res) := by
  induction ls generalizing req with
  | nil => rfl
  | cons l ls ih =>
    rw [List.foldl_cons, srv_step_nosep_false (h l (List.mem_cons_self l ls)) req res,
      ih fun x hx => h x (List.mem_cons_of_mem l hx)]
    rfl

theorem srv_fold_true {pkg : Str} {ls : List Str}
    (h : ∀ l ∈ ls, containsSub l (str "---") = false) (req res : FieldSet) :
    ls.foldl (process_srv_step pkg) (true, req, res)
      = (true, req, fieldFold pkg res ls) := by
  induction ls generalizing res with
  | nil => rfl
  | cons l ls ih =>
    rw [List.foldl_cons, srv_step_nosep_true (h l (List.mem_cons_self l ls)) req res,
      ih fun x hx => h x (List.mem_cons_of_mem l hx)]
    rfl

theorem action_step_sep {pkg line : Str} (h : containsSub line (str "---") = true)
    (st : Nat × FieldSet × FieldSet × FieldSet) :
    process_action_step pkg st line = (st.1 + 1, st.2) := by
  unfold process_action_step
  rw [h]
  rfl

theorem action_step_nosep_0 {pkg line : Str}
    (h : containsSub line (str "---") = false) (g r f : FieldSet) :
    process_action_step pkg (0, g, r, f) line = (0, fieldStep pkg g line, r, f) := by
  unfold process_action_step fieldStep
  rw [h]
  simp only [Bool.false_eq_true, if_false]
  rcases get_type_format line pkg with ⟨v, _ | t⟩
  · rfl
  · rfl

theorem action_step_nosep_1 {pkg line : Str}
    (h : containsSub line (str "---") = false) (g r f : FieldSet) :
    process_action_step pkg (1, g, r, f) line = (1, g, fieldStep pkg r line, f) := by
  unfold process_action_step fieldStep
  rw [h]
  simp only [Bool.false_eq_true, if_false]
  rcases get_type_format line pkg with ⟨v, _ | t⟩
  · rfl
  · rfl

theorem action_step_nosep_2 {pkg line : Str}
    (h : containsSub line (str "---") = false) (g r f : FieldSet) :
    process_action_step pkg (2, g, r, f) line = (2, g, r, fieldStep pkg f line) := by
  unfold process_action_step fieldStep
  rw [h]
  simp only [Bool.false_eq_true, if_false]
  rcases get_type_format line pkg with ⟨v, _ | t⟩
  · rfl
  · rfl

theorem action_step_ge3 {pkg line : Str} {b : Nat} (hb : 3 ≤ b)
    (h : containsSub line (str "---") = false) (g r f : FieldSet) :
    process_action_step pkg (b, g, r, f) line = (b, g, r, f) := by
  unfold process_action_step
  rw [h]
  simp only [Bool.false_eq_true, if_false]
  rcases get_type_format line pkg with ⟨v, _ | t⟩
  · rfl
  · have h0 : ¬(b = 0) := by omega
    have h1 : ¬(b = 1) := by omega
    have h2 : ¬(b = 2) := by omega
    simp [h0, h1, h2]

theorem action_fold_0 {pkg : Str} {ls : List Str}
    (h : ∀ l ∈ ls, containsSub l (str "---") = false) (g r f : FieldSet) :
    ls.foldl (process_action_step pkg) (0, g, r, f)
      = (0, fieldFold pkg g ls, r, f) := by
  induction ls generalizing g with
  | nil => rfl
  | cons l ls ih =>
    rw [List.foldl_cons, action_step_nosep_0 (h l (List.mem_cons_self l ls)),
      ih fun x hx => h x (List.mem_cons_of_mem l hx)]
    rfl

theorem action_fold_1 {pkg : Str} {ls : List Str}
    (h : ∀ l ∈ ls, containsSub l (str "---") = false) (g r f : FieldSet) :
    ls.foldl (process_action_step pkg) (1, g, r, f)
      = (1, g, fieldFold pkg r ls, f) := by
  induction ls generalizing r with
  | nil => rfl
  | cons l ls ih =>
    rw [List.foldl_cons, action_step_nosep_1 (h l (List.mem_cons_self l ls)),
      ih fun x hx => h x (List.mem_cons_of_mem l hx)]
    rfl

theorem action_fold_2 {pkg : Str} {ls : List Str}
    (h : ∀ l ∈ ls, containsSub l (str "---") = false) (g r f : FieldSet) :
    ls.foldl (process_action_step pkg) (2, g, r, f)
      = (2, g, r, fieldFold pkg f ls) := by
  induction ls generalizing f with
  | nil => rfl
  | cons l ls ih =>
    rw [List.foldl_cons, action_step_nosep_2 (h l (List.mem_cons_self l ls)),
      ih fun x hx => h x (List.mem_cons_of_mem l hx)]
    rfl

/-- Once the separator counter has reached 3, no later line — separator or
not — changes any of the three field sets. -/
theorem action_fold_ge3 {pkg : Str} (ls : List Str) :
    ∀ b, 3 ≤ b → ∀ g r f : FieldSet,
      (ls.foldl (process_action_step pkg) (b, g, r, f)).2 = (g, r, f) := by
  induction ls with
  | nil => intro b hb g r f; rfl
  | cons l ls ih =>
    intro b hb g r f
    rw [List.foldl_cons]
    by_cases hsep : containsSub l (str "---") = true
    · rw [action_step_sep hsep]
      exact ih (b + 1) (by omega) g r f
    · rw [action_step_ge3 hb (Bool.not_eq_true _ ▸ hsep) g r f]
      exact ih b hb g r f

/-! ### Uniqueness of field names -/

theorem fieldKeys_dictInsert (d : FieldSet) (k : Option Str) (v : Str) :
    fieldKeys (dictInsert d k v)
      = if k ∈ fieldKeys d then fieldKeys d else fieldKeys d ++ [k] := by
  induction d with
  | nil => simp [dictInsert, fieldKeys]
  | cons p rest ih =>
    obtain ⟨k1, v1⟩ := p
    by_cases hk : k1 = k
    · subst hk
      simp [dictInsert, fieldKeys]
    · have hmc : k ∈ fieldKeys ((k1, v1) :: rest) ↔ k ∈ fieldKeys rest := by
        constructor
        · intro hm
          rcases List.mem_cons.mp hm with hm | hm
          · exact absurd hm.symm hk
          · exact hm
        · exact fun hm => List.mem_cons.mpr (Or.inr hm)
      rw [show dictInsert ((k1, v1) :: rest) k v
          = (k1, v1) :: dictInsert rest k v by simp [dictInsert, hk]]
      by_cases hm : k ∈ fieldKeys rest
      · rw [show fieldKeys ((k1, v1) :: dictInsert rest k v)
            = k1 :: fieldKeys (dictInsert rest k v) from rfl, ih, if_pos hm]
        rw [if_pos (hmc.mpr hm)]
        rfl
      · rw [show fieldKeys ((k1, v1) :: dictInsert rest k v)
            = k1 :: fieldKeys (dictInsert rest k v) from rfl, ih, if_neg hm]
        rw [if_neg fun hmm => hm (hmc.mp hmm)]
        rfl

theorem nodup_fieldKeys_dictInsert {d : FieldSet} (h : (fieldKeys d).Nodup)
    (k : Option Str) (v : Str) : (fieldKeys (dictInsert d k v)).Nodup := by
  rw [fieldKeys_dictInsert]
  by_cases hm : k ∈ fieldKeys d
  · rw [if_pos hm]; exact h
  · rw [if_neg hm, List.nodup_append]
    exact ⟨h, List.nodup_singleton k,
      fun a ha hb => hm (List.mem_singleton.mp hb ▸ ha)⟩

theorem nodup_fieldStep (pkg : Str) {d : FieldSet} (line : Str)
    (h : (fieldKeys d).Nodup) : (fieldKeys (fieldStep pkg d line)).Nodup := by
  unfold fieldStep
  rcases get_type_format line pkg with ⟨v, _ | t⟩
  · exact h
  · exact nodup_fieldKeys_dictInsert h v t

theorem nodup_fieldFold (pkg : Str) (ls : List Str) :
    ∀ d : FieldSet, (fieldKeys d).Nodup → (fieldKeys (fieldFold pkg d ls)).Nodup := by
  induction ls with
  | nil => exact fun d h => h
  | cons l ls ih =>
    intro d h
    exact ih (fieldStep pkg d l) (nodup_fieldStep pkg l h)

theorem nodup_msg_step (pkg line : Str) {d : FieldSet}
    (h : (fieldKeys d).Nodup) : (fieldKeys (process_msg_step pkg d line)).Nodup := by
  unfold process_msg_step
  dsimp only
  by_cases h1 : line.contains '=' = true
  · rw [if_pos h1]; exact h
  · rw [if_neg h1]
    by_cases h2 : (replaceAll line [nlChar] []).isEmpty = true
    · rw [if_pos h2]; exact h
    · rw [if_neg h2]; exact nodup_fieldStep pkg _ h

theorem nodup_msg_fold (pkg : Str) (ls : List Str) :
    ∀ d : FieldSet, (fieldKeys d).Nodup →
      (fieldKeys (ls.foldl (process_msg_step pkg) d)).Nodup := by
  induction ls with
  | nil => exact fun d h => h
  | cons l ls ih =>
    intro d h
    exact ih (process_msg_step pkg d l) (nodup_msg_step pkg l h)

theorem nodup_srv_step (pkg line : Str) {st : Bool × FieldSet × FieldSet}
    (h : (fieldKeys st.2.1).Nodup ∧ (fieldKeys st.2.2).Nodup) :
    (fieldKeys ((process_srv_step pkg st line).2.1)).Nodup ∧
      (fieldKeys ((process_srv_step pkg st line).2.2)).Nodup := by
  unfold process_srv_step
  by_cases hsep : containsSub line (str "---") = true
  · rw [hsep]
    exact h
  · rw [Bool.eq_false_iff.mpr hsep]
    simp only [Bool.false_eq_true, if_false]
    rcases get_type_format line pkg with ⟨v, _ | t⟩
    · exact h
    · by_cases hflag : st.1 = true
      · rw [hflag]
        exact ⟨h.1, nodup_fieldKeys_dictInsert h.2 v t⟩
      · rw [Bool.eq_false_iff.mpr hflag]
        exact ⟨nodup_fieldKeys_dictInsert h.1 v t, h.2⟩

theorem nodup_srv_fold (pkg : Str) (ls : List Str) :
    ∀ st : Bool × FieldSet × FieldSet,
      (fieldKeys st.2.1).Nodup ∧ (fieldKeys st.2.2).Nodup →
      (fieldKeys ((ls.foldl (process_srv_step pkg) st).2.1)).Nodup ∧
        (fieldKeys ((ls.foldl (process_srv_step pkg) st).2.2)).Nodup := by
  induction ls with
  | nil => exact fun st h => h
  | cons l ls ih =>
    intro st h
    exact ih (process_srv_step pkg st l) (nodup_srv_step pkg l h)

theorem nodup_action_step (pkg line : Str)
    {st : Nat × FieldSet × FieldSet × FieldSet}
    (h : (fieldKeys st.2.1).Nodup ∧ (fieldKeys st.2.2.1).Nodup ∧
      (fieldKeys st.2.2.2).Nodup) :
    (fieldKeys ((process_action_step pkg st line).2.1)).Nodup ∧
      (fieldKeys ((process_action_step pkg st line).2.2.1)).Nodup ∧
      (fieldKeys ((process_action_step pkg st line).2.2.2)).Nodup := by
  unfold process_action_step
  by_cases hsep : containsSub line (str "---") = true
  · rw [hsep]
    exact h
  · rw [Bool.eq_false_iff.mpr hsep]
    simp only [Bool.false_eq_true, if_false]
    rcases get_type_format line pkg with ⟨v, _ | t⟩
    · exact h
    · refine ⟨?_, ?_, ?_⟩
      · by_cases h0 : st.1 = 0 <;> simp [h0, h.1, nodup_fieldKeys_dictInsert h.1]
      · by_cases h1 : st.1 = 1 <;> simp [h1, h.2.1, nodup_fieldKeys_dictInsert h.2.1]
      · by_cases h2 : st.1 = 2 <;> simp [h2, h.2.2, nodup_fieldKeys_dictInsert h.2.2]

theorem nodup_action_fold (pkg : Str) (ls : List Str) :
    ∀ st : Nat × FieldSet × FieldSet × FieldSet,
      (fieldKeys st.2.1).Nodup ∧ (fieldKeys st.2.2.1).Nodup ∧
        (fieldKeys st.2.2.2).Nodup →
      (fieldKeys ((ls.foldl (process_action_step pkg) st).2.1)).Nodup ∧
        (fieldKeys ((ls.foldl (process_action_step pkg) st).2.2.1)).Nodup ∧
        (fieldKeys ((ls.foldl (process_action_step pkg) st).2.2.2)).Nodup := by
  induction ls with
  | nil => exact fun st h => h
  | cons l ls ih =>
    intro st h
    exact ih (process_action_step pkg st l) (nodup_action_step pkg l h)

/-! ### Remaining helper lemmas -/

theorem contains_eq_true_of_mem {c : Char} {s : Str} (h : c ∈ s) :
    s.contains c = true := by
  induction s with
  | nil => cases h
  | cons a rest ih =>
    rcases List.mem_cons.mp h with h | h
    · subst h
      simp [List.contains_cons]
    · simp only [List.contains_cons, Bool.or_eq_true]
      exact Or.inr (ih h)

/-- Replacing `pat` inside `pat ++ suffix` when `pat` does not occur again in
`suffix` rewrites exactly the leading copy. -/
theorem replaceAll_leading_pat {pat suffix : Str} (rep : Str) (hp : pat ≠ [])
    (hsub : containsSub suffix pat = false) :
    replaceAll (pat ++ suffix) pat rep = rep ++ suffix := by
  obtain ⟨c, pat1, rfl⟩ : ∃ c pat1, pat = c :: pat1 := by
    cases pat with
    | nil => exact absurd rfl hp
    | cons c pat1 => exact ⟨c, pat1, rfl⟩
  rw [List.cons_append,
    replaceAll_cons_pos rep (by simp)
      (by
        rw [← List.cons_append]
        exact List.isPrefixOf_iff_prefix.mpr ⟨suffix, rfl⟩)]
  rw [← List.cons_append]
  have hd : ((c :: pat1) ++ suffix).drop (c :: pat1).length = suffix :=
    List.drop_left _ _
  rw [hd, replaceAll_eq_self rep hsub]

/-- The closing quote comes before the array suffix: `'X'[]` is a different
string from `'X[]'`. -/
theorem quote_suffix_order (A : Str) :
    quoteStr A ++ str "[]" ≠ quoteStr (A ++ str "[]") := by
  intro he
  unfold quoteStr at he
  rw [str_brackets] at he
  simp only [List.cons_append, List.append_assoc, List.cons.injEq, true_and] at he
  have h3 := List.append_cancel_left he
  exact absurd h3 (by decide)

/-! ### Claims -/

/-- C1, counterexample: resolving the unscoped compound field line
`Point p` against package `pkgX` yields the quoted type string WITH a
trailing `[]` suffix, not the suffix-free `'pkgX/msg/Point'` the claim
requires: `get_type_format` appends `[]` unconditionally. -/
theorem claim_C1_counterexample :
    (get_type_format (str "Point p") (str "pkgX")).2
        = some (quoteStr (str "pkgX/msg/Point") ++ str "[]") ∧
      (get_type_format (str "Point p") (str "pkgX")).2
        ≠ some (quoteStr (str "pkgX/msg/Point")) := by
  constructor
  · decide
  · decide

/-- C1, amended: for every field line `T NAME` where `T` is a compound
(non-primitive) token without package separator and without array
annotation, resolving against `pkg` yields `'pkg/msg/T'[]` — the `[]`
suffix is appended unconditionally, even though the token carried no
array annotation. -/
theorem claim_C1 {T N pkg : Str} (hT0 : T ≠ []) (hN0 : N ≠ [])
    (hT : ∀ c ∈ T, plainChar c = true) (hN : ∀ c ∈ N, plainChar c = true)
    (hp : T ∉ primitive_types) (hbpkg : '[' ∉ pkg) :
    get_type_format (T ++ ' ' :: N) pkg
      = (some N, some (quoteStr (pkg ++ str "/msg/" ++ T) ++ str "[]")) :=
  gtf_compound (split_line_two_plain hT0 hN0 hT hN) hp
    (fun hc => (plainChar_spec (hT '/' hc)).2.2.2.2.2 rfl)
    (fun hc => (plainChar_spec (hT '[' hc)).2.2.2.1 rfl) hbpkg

theorem claim_C1_witness :
    get_type_format ((str "Point") ++ ' ' :: (str "p")) (str "pkgX")
      = (some (str "p"),
         some (quoteStr ((str "pkgX") ++ str "/msg/" ++ (str "Point")) ++ str "[]")) :=
  claim_C1 (by decide) (by decide) (by decide) (by decide) (by decide) (by decide)

/-- C5: for every compound unscoped array field line `T[] NAME` the
resolved type string is `'pkg/msg/T'[]` — the quotes close before the
array suffix — and that string differs from `'pkg/msg/T[]'`, which has
the suffix inside the quotes. -/
theorem claim_C5 {T N pkg : Str} (hT0 : T ≠ []) (hN0 : N ≠ [])
    (hT : ∀ c ∈ T, plainChar c = true) (hN : ∀ c ∈ N, plainChar c = true)
    (hp : (T ++ str "[]") ∉ primitive_types) (hbpkg : '[' ∉ pkg) :
    get_type_format (T ++ '[' :: ']' :: ' ' :: N) pkg
        = (some N, some (quoteStr (pkg ++ str "/msg/" ++ T) ++ str "[]")) ∧
      quoteStr (pkg ++ str "/msg/" ++ T) ++ str "[]"
        ≠ quoteStr ((pkg ++ str "/msg/" ++ T) ++ str "[]") :=
  ⟨gtf_compound_array (split_line_two_array hT0 hN0 hT hN) hp
      (fun hc => (plainChar_spec (hT '/' hc)).2.2.2.2.2 rfl)
      (fun hc => (plainChar_spec (hT '[' hc)).2.2.2.1 rfl) hbpkg,
    quote_suffix_order (pkg ++ str "/msg/" ++ T)⟩

theorem claim_C5_witness :
    get_type_format ((str "Point") ++ '[' :: ']' :: ' ' :: (str "p")) (str "pkgX")
        = (some (str "p"),
           some (quoteStr ((str "pkgX") ++ str "/msg/" ++ (str "Point")) ++ str "[]")) ∧
      quoteStr ((str "pkgX") ++ str "/msg/" ++ (str "Point")) ++ str "[]"
        ≠ quoteStr (((str "pkgX") ++ str "/msg/" ++ (str "Point")) ++ str "[]") :=
  claim_C5 (by decide) (by decide) (by decide) (by decide) (by decide) (by decide)

/-- C2, counterexample: `time[]` — the array form of the primitive `time`
— is NOT in the closed primitive list, so the resolver treats it as a
compound type: it is quoted and package-qualified instead of being
returned unchanged.  (The same holds for `duration[]` and `Header[]`.) -/
theorem claim_C2_counterexample :
    (get_type_format (str "time[] t") (str "pkgX")).2 ≠ some (str "time[]") ∧
      (get_type_format (str "time[] t") (str "pkgX")).2
        = some (quoteStr ((str "pkgX") ++ str "/msg/" ++ (str "time")) ++ str "[]") := by
  constructor
  · decide
  · decide

/-- C2, amended: every member of the closed primitive list — the scalars
`bool`, the sized integers, the floats, `string`, `byte`, `time`,
`duration`, `Header`, and the array forms of the first thirteen — is
returned unchanged by the resolver, with no quoting and no package
prefix, for any declaring package; but the array forms of `time`,
`duration` and `Header` are NOT in the list and resolve as compound,
quoted, package-qualified types. -/
theorem claim_C2 :
    (∀ P ∈ primitive_types, ∀ pkg : Str,
      get_type_format (P ++ ' ' :: (str "x")) pkg = (some (str "x"), some P)) ∧
    (∀ pkg : Str, '[' ∉ pkg →
      get_type_format ((str "time") ++ '[' :: ']' :: ' ' :: (str "x")) pkg
          = (some (str "x"),
             some (quoteStr (pkg ++ str "/msg/" ++ (str "time")) ++ str "[]")) ∧
      get_type_format ((str "duration") ++ '[' :: ']' :: ' ' :: (str "x")) pkg
          = (some (str "x"),
             some (quoteStr (pkg ++ str "/msg/" ++ (str "duration")) ++ str "[]")) ∧
      get_type_format ((str "Header") ++ '[' :: ']' :: ' ' :: (str "x")) pkg
          = (some (str "x"),
             some (quoteStr (pkg ++ str "/msg/" ++ (str "Header")) ++ str "[]"))) := by
  constructor
  · intro P hP pkg
    refine gtf_primitive ?_ hP
    fin_cases hP <;> decide
  · intro pkg hbpkg
    refine ⟨?_, ?_, ?_⟩ <;>
      exact gtf_compound_array
        (split_line_two_array (by decide) (by decide) (by decide) (by decide))
        (by decide) (by decide) (by decide) hbpkg

theorem claim_C2_witness :
    get_type_format ((str "bool") ++ ' ' :: (str "x")) (str "pkgX")
        = (some (str "x"), some (str "bool")) ∧
      get_type_format ((str "time") ++ '[' :: ']' :: ' ' :: (str "x")) (str "pkgX")
        = (some (str "x"),
           some (quoteStr ((str "pkgX") ++ str "/msg/" ++ (str "time")) ++ str "[]")) :=
  ⟨claim_C2.1 (str "bool") (by decide) (str "pkgX"),
    (claim_C2.2 (str "pkgX") (by decide)).1⟩

/-- C3, counterexample: the single-token line `Point` tokenizes to
`(some "Point", none)`, yet the message builder DOES store a field for
it — under the missing (`None`) name — so the incomplete line
contributes an entry to the FieldSet, contradicting the claim. -/
theorem claim_C3_counterexample :
    process_msg_lines [str "Point"] (str "pkg")
        = [(none, quoteStr (str "pkg/msg/Point") ++ str "[]")] ∧
      process_msg_lines [str "Point"] (str "pkg") ≠ [] := by
  constructor
  · decide
  · decide

/-- C3, amended: a significant line with a type token and no name token
tokenizes to `(type_token, None)` without raising, but the builders do
NOT skip it: since only the resolved type is tested for `None`, the field
is stored under the missing name, i.e. the FieldSet gains the entry
`None ↦ resolved type`. -/
theorem claim_C3 (line pkg t : Str) (hnl : nlChar ∉ line) (h0 : line ≠ [])
    (heq : line.contains '=' = false)
    (hs : split_line line = (some t, none)) :
    get_type_format line pkg = (none, some (resolveTok t pkg)) ∧
      ∀ d : FieldSet, process_msg_step pkg d line
        = dictInsert d none (resolveTok t pkg) := by
  have h1 : get_type_format line pkg = (none, some (resolveTok t pkg)) := by
    unfold get_type_format resolveTok
    rw [hs]
    dsimp only
    by_cases hp : t ∈ primitive_types
    · rw [if_pos hp, if_pos hp]
    · rw [if_neg hp, if_neg hp]
  refine ⟨h1, fun d => ?_⟩
  unfold process_msg_step
  dsimp only
  rw [heq]
  simp only [Bool.false_eq_true, if_false]
  rw [replaceAll_nl_eq_self hnl]
  have hie : line.isEmpty = false := by
    cases line with
    | nil => exact absurd rfl h0
    | cons a l => rfl
  rw [hie]
  simp only [Bool.false_eq_true, if_false]
  unfold fieldStep
  rw [h1]

theorem claim_C3_witness :
    get_type_format (str "Point") (str "pkg")
        = (none, some (resolveTok (str "Point") (str "pkg"))) ∧
      process_msg_step (str "pkg") [] (str "Point")
        = dictInsert [] none (resolveTok (str "Point") (str "pkg")) :=
  ⟨(claim_C3 (str "Point") (str "pkg") (str "Point")
      (by decide) (by decide) (by decide) (by decide)).1,
    (claim_C3 (str "Point") (str "pkg") (str "Point")
      (by decide) (by decide) (by decide) (by decide)).2 []⟩

/-- C4, counterexample: the line `a---b c` does not consist of dash
characters, yet — because the builder tests `"---" in line`, a substring
containment — it triggers the request→response transition and
contributes no field: the request set stays empty and the following
field line lands in the response set. -/
theorem claim_C4_counterexample :
    process_srv_file (str "S") [str "a---b c", str "int32 x"] (str "p")
      = ⟨str "S", [], [(some (str "x"), str "int32")]⟩ := by
  decide

/-- C4, amended: exactly those lines CONTAINING three consecutive dashes
as a substring (hence in particular every line consisting of three or
more dashes) trigger the request→response transition and contribute no
field; every line without that substring is processed as a field line
for the section active when it is read.  The concrete example
`int32 a` / `---` / `string b` produces request `{a: int32}` and
response `{b: string}` under the file's stem as name. -/
theorem claim_C4 :
    (∀ stem pkg : Str, ∀ pre post : List Str, ∀ sep : Str,
      (∀ l ∈ pre, containsSub l (str "---") = false) →
      (∀ l ∈ post, containsSub l (str "---") = false) →
      containsSub sep (str "---") = true →
      process_srv_file stem (pre ++ sep :: post) pkg
        = ⟨stem, fieldFold pkg [] pre, fieldFold pkg [] post⟩) ∧
    process_srv_file (str "X") [str "int32 a", str "---", str "string b"] (str "p")
      = ⟨str "X", [(some (str "a"), str "int32")], [(some (str "b"), str "string")]⟩ := by
  constructor
  · intro stem pkg pre post sep hpre hpost hsep
    unfold process_srv_file process_srv_lines
    rw [List.foldl_append, srv_fold_false hpre, List.foldl_cons,
      srv_step_sep hsep]
    dsimp only
    rw [srv_fold_true hpost]
  · decide

theorem claim_C4_witness :
    process_srv_file (str "X")
        ([str "int32 a"] ++ (str "---") :: [str "string b"]) (str "p")
      = ⟨str "X", fieldFold (str "p") [] [str "int32 a"],
          fieldFold (str "p") [] [str "string b"]⟩ :=
  claim_C4.1 (str "X") (str "p") [str "int32 a"] [str "string b"] (str "---")
    (by decide) (by decide) (by decide)

/-- C6: the separator counter of the action builder starts at 0 (goal),
increments on each separator line, and selects goal, result and
feedback for values 0, 1 and 2; after a third separator no field set is
selected, so every later line — of any shape — is absent from all three
maps of the returned `Action`. -/
theorem claim_C6 (stem pkg : Str) (g r f rest : List Str) (s1 s2 s3 : Str)
    (hg : ∀ l ∈ g, containsSub l (str "---") = false)
    (hr : ∀ l ∈ r, containsSub l (str "---") = false)
    (hf : ∀ l ∈ f, containsSub l (str "---") = false)
    (h1 : containsSub s1 (str "---") = true)
    (h2 : containsSub s2 (str "---") = true)
    (h3 : containsSub s3 (str "---") = true) :
    process_action_file stem (g ++ s1 :: (r ++ s2 :: (f ++ s3 :: rest))) pkg
      = ⟨stem, fieldFold pkg [] g, fieldFold pkg [] r, fieldFold pkg [] f⟩ := by
  have hlines : (process_action_lines (g ++ s1 :: (r ++ s2 :: (f ++ s3 :: rest))) pkg).2
      = (fieldFold pkg [] g, fieldFold pkg [] r, fieldFold pkg [] f) := by
    unfold process_action_lines
    rw [List.foldl_append, action_fold_0 hg, List.foldl_cons, action_step_sep h1]
    dsimp only
    rw [List.foldl_append, action_fold_1 hr, List.foldl_cons, action_step_sep h2]
    dsimp only
    rw [List.foldl_append, action_fold_2 hf, List.foldl_cons, action_step_sep h3]
    dsimp only
    exact action_fold_ge3 rest 3 (le_refl 3) _ _ _
  unfold process_action_file
  rw [hlines]

theorem claim_C6_witness :
    process_action_file (str "A")
        ([str "int32 g"] ++ (str "---") :: ([str "int32 r"] ++ (str "---") ::
          ([str "int32 f"] ++ (str "---") :: [str "int32 z"]))) (str "p")
      = ⟨str "A", fieldFold (str "p") [] [str "int32 g"],
          fieldFold (str "p") [] [str "int32 r"],
          fieldFold (str "p") [] [str "int32 f"]⟩ :=
  claim_C6 (str "A") (str "p") [str "int32 g"] [str "int32 r"] [str "int32 f"]
    [str "int32 z"] (str "---") (str "---") (str "---")
    (by decide) (by decide) (by decide) (by decide) (by decide) (by decide)

/-- C7: within every FieldSet of every builder — the message map, both
service sections and all three action sections — field names are unique
(the key list of the resulting dict has no duplicates), and a later
duplicate silently overwrites the earlier value: processing `int32 x`
then `string x` leaves exactly the single entry `x ↦ string`. -/
theorem claim_C7 :
    (∀ lines : List Str, ∀ pkg : Str,
      (fieldKeys (process_msg_lines lines pkg)).Nodup) ∧
    (∀ lines : List Str, ∀ pkg : Str,
      (fieldKeys ((process_srv_lines lines pkg).2.1)).Nodup ∧
        (fieldKeys ((process_srv_lines lines pkg).2.2)).Nodup) ∧
    (∀ lines : List Str, ∀ pkg : Str,
      (fieldKeys ((process_action_lines lines pkg).2.1)).Nodup ∧
        (fieldKeys ((process_action_lines lines pkg).2.2.1)).Nodup ∧
        (fieldKeys ((process_action_lines lines pkg).2.2.2)).Nodup) ∧
    process_msg_lines [str "int32 x", str "string x"] (str "p")
      = [(some (str "x"), str "string")] := by
  refine ⟨?_, ?_, ?_, by decide⟩
  · intro lines pkg
    exact nodup_msg_fold pkg lines [] List.nodup_nil
  · intro lines pkg
    exact nodup_srv_fold pkg lines (false, [], []) ⟨List.nodup_nil, List.nodup_nil⟩
  · intro lines pkg
    exact nodup_action_fold pkg lines (0, [], [], [])
      ⟨List.nodup_nil, List.nodup_nil, List.nodup_nil⟩

/-- C8, counterexample: with node name `/n`, the topic `/a/n` is NOT
prefixed by `/n`, yet `fix_topic_names` rewrites it to `/a~`, because the
implementation replaces every occurrence of the node name as a substring
(`str.replace`), not only a leading prefix. -/
theorem claim_C8_counterexample :
    fix_topic_names (str "/n") [⟨str "/a/n", [str "T"]⟩]
        = [⟨str "/a~", [str "T"]⟩] ∧
      fix_topic_names (str "/n") [⟨str "/a/n", [str "T"]⟩]
        ≠ [⟨str "/a/n", [str "T"]⟩] := by
  constructor
  · decide
  · decide

/-- C8, amended: for a node name starting with `/`, `fix_topic_names`
rewrites every topic record by replacing EVERY occurrence of the node
name as a substring of the topic name with `~` (so in particular a topic
name that is the node name followed by a suffix not containing it again
becomes `~` + suffix), and carries the type lists over unmodified. -/
theorem claim_C8 :
    (∀ node_name : Str, ∀ topics : List TopicInfo,
      ['/'].isPrefixOf node_name = true →
      fix_topic_names node_name topics
        = topics.map fun t =>
            ⟨replaceAll t.name node_name (str "~"), t.types⟩) ∧
    (∀ node_name suffix : Str, ∀ tys : List Str,
      ['/'].isPrefixOf node_name = true →
      containsSub suffix node_name = false →
      fix_topic_names node_name [⟨node_name ++ suffix, tys⟩]
        = [⟨str "~" ++ suffix, tys⟩]) := by
  have hloop : ∀ (nn : Str), ['/'].isPrefixOf nn = true →
      ∀ topics : List TopicInfo,
      fix_topic_names_loop nn topics
        = topics.map fun t => ⟨replaceAll t.name nn (str "~"), t.types⟩ := by
    intro nn hnn topics
    induction topics with
    | nil => rfl
    | cons t ts ih =>
      unfold fix_topic_names_loop
      rw [if_pos hnn]
      dsimp only
      rw [List.map_cons, ih]
  constructor
  · intro nn topics hnn
    exact hloop nn hnn topics
  · intro nn suffix tys hnn hsub
    have hnn0 : nn ≠ [] := by
      intro he
      rw [he] at hnn
      exact absurd hnn (by decide)
    unfold fix_topic_names
    rw [hloop nn hnn [⟨nn ++ suffix, tys⟩], List.map_cons, List.map_nil]
    rw [show (⟨nn ++ suffix, tys⟩ : TopicInfo).name = nn ++ suffix from rfl]
    rw [replaceAll_leading_pat (str "~") hnn0 hsub]

theorem claim_C8_witness :
    fix_topic_names (str "/n") [⟨str "/topic", [str "T"]⟩]
        = [⟨replaceAll (str "/topic") (str "/n") (str "~"), [str "T"]⟩] ∧
      fix_topic_names (str "/n") [⟨(str "/n") ++ (str "/cmd"), [str "T"]⟩]
        = [⟨str "~" ++ str "/cmd", [str "T"]⟩] :=
  ⟨claim_C8.1 (str "/n") [⟨str "/topic", [str "T"]⟩] (by decide),
    claim_C8.2 (str "/n") (str "/cmd") [str "T"] (by decide) (by decide)⟩

/-- C9: any line containing `=` anywhere — including inside a trailing
inline comment — tokenizes to `(None, None)`, resolves to `(None, None)`,
and contributes no field to the message builder, because the
constant-declaration check runs on the raw line before comments are
stripped. -/
theorem claim_C9 :
    (∀ line : Str, '=' ∈ line → split_line line = (none, none)) ∧
    (∀ line pkg : Str, '=' ∈ line → get_type_format line pkg = (none, none)) ∧
    (∀ pre post : List Str, ∀ line pkg : Str, '=' ∈ line →
      process_msg_lines (pre ++ line :: post) pkg
        = process_msg_lines (pre ++ post) pkg) := by
  have h1 : ∀ line : Str, '=' ∈ line → split_line line = (none, none) := by
    intro line hmem
    unfold split_line
    dsimp only
    rw [if_pos (by
      unfold sigGuard
      rw [contains_eq_true_of_mem (by
        rw [replaceAll_singleton_eq_filter]
        exact List.mem_filter.mpr ⟨hmem, by decide⟩)]
      simp)]
  have h2 : ∀ line pkg : Str, '=' ∈ line →
      get_type_format line pkg = (none, none) := by
    intro line pkg hmem
    unfold get_type_format
    rw [h1 line hmem]
  refine ⟨h1, h2, ?_⟩
  intro pre post line pkg hmem
  have hstep : ∀ d : FieldSet, process_msg_step pkg d line = d := by
    intro d
    unfold process_msg_step
    rw [contains_eq_true_of_mem hmem]
    rfl
  unfold process_msg_lines
  rw [List.foldl_append, List.foldl_cons, hstep, List.foldl_append]

theorem claim_C9_witness :
    split_line (str "int32 x  # default = 5") = (none, none) ∧
      get_type_format (str "int32 x  # default = 5") (str "p") = (none, none) ∧
      process_msg_lines
          ([str "int32 a"] ++ (str "int32 x  # default = 5") :: [str "int32 b"])
          (str "p")
        = process_msg_lines ([str "int32 a"] ++ [str "int32 b"]) (str "p") :=
  ⟨claim_C9.1 (str "int32 x  # default = 5") (by decide),
    claim_C9.2.1 (str "int32 x  # default = 5") (str "p") (by decide),
    claim_C9.2.2 [str "int32 a"] [str "int32 b"]
      (str "int32 x  # default = 5") (str "p") (by decide)⟩

/-- C10: bracket normalization is one greedy substitution spanning from
the first `[` to the last `]` of the whole line: on `int8[2] x[3]` it
merges both tokens into the single type token `int8[]`, and the
tokenizer returns a `None` name. -/
theorem claim_C10 :
    split_line (str "int8[2] x[3]") = (some (str "int8[]"), none) := by
  decide

end Ros2Model
